import Mathlib

set_option linter.unusedVariables false

/-!
Shallow embedding of the dense random-walk transition engine of PecanPy
(src/pecanpy/rw/dense_rw.py) over exact rationals.

The graph is a pair of `N x N` arrays: `data : Fin n → Fin n → ℚ` (edge
weights, `data i j` = weight of edge i→j) and `nonzero : Fin n → Fin n → Bool`
(adjacency mask).  numpy in-place single-cell updates (`a[i] = v`) are
modelled with `Function.update`; elementwise masked assignment
(`a[mask] op= v`) becomes a pointwise `if`; masked extraction `a[mask]` is
modelled by filtering `List.finRange n` with the mask, keeping row order.
Floating-point arithmetic is modelled exactly in `ℚ`; the float NaN produced
by a zero-sum division is outside this model and is discussed where relevant.
-/

namespace PecanPy

/-- Row-order list of the neighbor positions of `cur`: the indices `j` with
`nonzero cur j = true`.  This is the order in which numpy masked extraction
`a[nbrs_ind]` produces entries. -/
def nbr_list {n : ℕ} (nonzero : Fin n → Fin n → Bool) (cur : Fin n) : List (Fin n) :=
  (List.finRange n).filter (fun j => nonzero cur j)

/-- `get_average_weights`: `deg_ary = self.data.sum(axis=1)` (the FULL row
sum, over all columns) divided by `n_nbrs_ary = self.nonzero.sum(axis=1)`
(the count of mask-true columns). -/
def get_average_weights {n : ℕ} (data : Fin n → Fin n → ℚ)
    (nonzero : Fin n → Fin n → Bool) : Fin n → ℚ :=
  fun i => ((List.finRange n).map (data i)).sum / ((nbr_list nonzero i).length : ℚ)

/-- `has_nbrs(idx)` from `get_has_nbrs`: scans row `idx` of `nonzero` and
returns true iff some cell is true. -/
def has_nbrs {n : ℕ} (nonzero : Fin n → Fin n → Bool) (idx : Fin n) : Bool :=
  (List.finRange n).any (fun j => nonzero idx j)

/-- `non_com_nbr = np.logical_and(nbrs_ind, ~nonzero[prev_idx])` followed by
the in-place overwrite `non_com_nbr[prev_idx] = False`. -/
def classic_non_com {n : ℕ} (nonzero : Fin n → Fin n → Bool) (cur prev : Fin n) :
    Fin n → Bool :=
  Function.update (fun j => nonzero cur j && !(nonzero prev j)) prev false

/-- State of `unnormalized_probs` after `unnormalized_probs[non_com_nbr] /= q`. -/
def classic_q_biased {n : ℕ} (data : Fin n → Fin n → ℚ) (nonzero : Fin n → Fin n → Bool)
    (q : ℚ) (cur prev : Fin n) : Fin n → ℚ :=
  fun j => if classic_non_com nonzero cur prev j then data cur j / q else data cur j

/-- State of `unnormalized_probs` after the subsequent in-place update
`unnormalized_probs[prev_idx] /= p`. -/
def classic_biased {n : ℕ} (data : Fin n → Fin n → ℚ) (nonzero : Fin n → Fin n → Bool)
    (p q : ℚ) (cur prev : Fin n) : Fin n → ℚ :=
  Function.update (classic_q_biased data nonzero q cur prev) prev
    (classic_q_biased data nonzero q cur prev prev / p)

/-- The shared normalization tail
`normalized_probs = unnormalized_probs / unnormalized_probs.sum()`. -/
def normalize (l : List ℚ) : List ℚ :=
  l.map (fun x => x / l.sum)

/-- `get_normalized_probs(data, nonzero, p, q, cur_idx, prev_idx,
average_weight_ary)`: classic node2vec transition probabilities.  The `avg`
argument is accepted, as in the source signature, but unused. -/
def get_normalized_probs {n : ℕ} (data : Fin n → Fin n → ℚ)
    (nonzero : Fin n → Fin n → Bool) (p q : ℚ) (cur : Fin n)
    (prevOpt : Option (Fin n)) (avg : Fin n → ℚ) : List ℚ :=
  match prevOpt with
  | none => normalize ((nbr_list nonzero cur).map (data cur))
  | some prev => normalize ((nbr_list nonzero cur).map (classic_biased data nonzero p q cur prev))

/-- `inout_ind = cur_nbrs_ind & (prev_nbrs_weight < average_weight_ary)`
followed by the in-place overwrite `inout_ind[prev_idx] = False`.  The numpy
comparison is ELEMENTWISE against `average_weight_ary`: position `j` is
compared against `avg j`, the average edge weight of node `j` itself. -/
def ext_inout {n : ℕ} (data : Fin n → Fin n → ℚ) (nonzero : Fin n → Fin n → Bool)
    (avg : Fin n → ℚ) (cur prev : Fin n) : Fin n → Bool :=
  Function.update (fun j => nonzero cur j && decide (data prev j < avg j)) prev false

/-- The out-bias array `alpha = 1/q + (1 - 1/q) * t` with
`t = prev_nbrs_weight[inout_ind] / average_weight_ary[inout_ind]`, after the
noise-suppression overwrite
`alpha[unnormalized_probs[inout_ind] < average_weight_ary[cur_idx]] = np.minimum(1, 1/q)`
(the suppression test reads `unnormalized_probs` BEFORE the `*= alpha`
update, i.e. the raw row of `cur`).  Only consumed at `inout` positions. -/
def ext_alpha {n : ℕ} (data : Fin n → Fin n → ℚ) (avg : Fin n → ℚ) (q : ℚ)
    (cur prev : Fin n) : Fin n → ℚ :=
  fun j => if data cur j < avg cur then min 1 (1 / q)
    else 1 / q + (1 - 1 / q) * (data prev j / avg j)

/-- State of `unnormalized_probs` after `unnormalized_probs[inout_ind] *= alpha`. -/
def ext_q_biased {n : ℕ} (data : Fin n → Fin n → ℚ) (nonzero : Fin n → Fin n → Bool)
    (avg : Fin n → ℚ) (q : ℚ) (cur prev : Fin n) : Fin n → ℚ :=
  fun j => if ext_inout data nonzero avg cur prev j then
      data cur j * ext_alpha data avg q cur prev j
    else data cur j

/-- State of `unnormalized_probs` after the subsequent in-place update
`unnormalized_probs[prev_idx] /= p`. -/
def ext_biased {n : ℕ} (data : Fin n → Fin n → ℚ) (nonzero : Fin n → Fin n → Bool)
    (avg : Fin n → ℚ) (p q : ℚ) (cur prev : Fin n) : Fin n → ℚ :=
  Function.update (ext_q_biased data nonzero avg q cur prev) prev
    (ext_q_biased data nonzero avg q cur prev prev / p)

/-- `get_extended_normalized_probs`: node2vec+ transition probabilities. -/
def get_extended_normalized_probs {n : ℕ} (data : Fin n → Fin n → ℚ)
    (nonzero : Fin n → Fin n → Bool) (p q : ℚ) (cur : Fin n)
    (prevOpt : Option (Fin n)) (avg : Fin n → ℚ) : List ℚ :=
  match prevOpt with
  | none => normalize ((nbr_list nonzero cur).map (data cur))
  | some prev =>
      normalize ((nbr_list nonzero cur).map (ext_biased data nonzero avg p q cur prev))

/-- The second-order bias of the classic policy as claim C2 words it: start
from the weight row of `cur`, divide by `q` exactly at positions that are
neighbors of `cur` but not of `prev` with `prev` itself forced out of that
set, and divide the entry at `prev` by `p`. -/
def classic_biased_spec {n : ℕ} (data : Fin n → Fin n → ℚ)
    (nonzero : Fin n → Fin n → Bool) (p q : ℚ) (cur prev : Fin n) : Fin n → ℚ :=
  fun j => if j = prev then data cur j / p
    else if nonzero cur j && !(nonzero prev j) then data cur j / q
    else data cur j

/-- The extended bias as claim C1 words it: candidates are neighbors `k` of
`cur` with `data prev k < avg prev` (PREVIOUS's average), `prev` excluded;
the ratio is `data prev k / avg prev`; noise suppression clamps to
`min 1 (1/q)` where `data cur k < avg cur`. -/
def ext_claim_biased {n : ℕ} (data : Fin n → Fin n → ℚ)
    (nonzero : Fin n → Fin n → Bool) (avg : Fin n → ℚ) (p q : ℚ)
    (cur prev : Fin n) : Fin n → ℚ :=
  fun j => if j = prev then data cur j / p
    else if nonzero cur j && decide (data prev j < avg prev) then
      data cur j * (if data cur j < avg cur then min 1 (1 / q)
        else 1 / q + (1 - 1 / q) * (data prev j / avg prev))
    else data cur j

/-- The distribution claim C1 predicts for a second-order extended step. -/
def ext_claim_probs {n : ℕ} (data : Fin n → Fin n → ℚ)
    (nonzero : Fin n → Fin n → Bool) (avg : Fin n → ℚ) (p q : ℚ)
    (cur prev : Fin n) : List ℚ :=
  normalize ((nbr_list nonzero cur).map (ext_claim_biased data nonzero avg p q cur prev))

/-- The extended bias as the AMENDED claim C1 words it: identical to
`ext_claim_biased` except that both the candidate test and the ratio use
`avg k`, the candidate's OWN average neighbor weight, in place of `avg prev`. -/
def ext_amended_biased {n : ℕ} (data : Fin n → Fin n → ℚ)
    (nonzero : Fin n → Fin n → Bool) (avg : Fin n → ℚ) (p q : ℚ)
    (cur prev : Fin n) : Fin n → ℚ :=
  fun j => if j = prev then data cur j / p
    else if nonzero cur j && decide (data prev j < avg j) then
      data cur j * (if data cur j < avg cur then min 1 (1 / q)
        else 1 / q + (1 - 1 / q) * (data prev j / avg j))
    else data cur j

/-- The per-node average as claim C8 words it: sum of `data i j` over EXACTLY
the mask-true columns `j`, divided by the count of mask-true columns. -/
def masked_average_weights {n : ℕ} (data : Fin n → Fin n → ℚ)
    (nonzero : Fin n → Fin n → Bool) : Fin n → ℚ :=
  fun i => ((nbr_list nonzero i).map (data i)).sum / ((nbr_list nonzero i).length : ℚ)

/-- Total probability mass a returned distribution assigns to the neighbor
slots selected by `sel`: the output list is aligned with `nbr_list`, so we
zip it with the neighbor indices and sum the entries whose index satisfies
`sel`. -/
def slot_mass {n : ℕ} (nonzero : Fin n → Fin n → Bool) (cur : Fin n)
    (sel : Fin n → Bool) (probs : List ℚ) : ℚ :=
  (((((nbr_list nonzero cur).zip probs)).filter (fun x => sel x.1)).map Prod.snd).sum

/-- Relative probability mass the classic policy assigns to the non-common
neighbors of `cur` (neighbors of `cur` not adjacent to `prev`, `prev`
excluded). -/
def noncommon_mass {n : ℕ} (data : Fin n → Fin n → ℚ)
    (nonzero : Fin n → Fin n → Bool) (p q : ℚ) (cur prev : Fin n)
    (avg : Fin n → ℚ) : ℚ :=
  slot_mass nonzero cur (classic_non_com nonzero cur prev)
    (get_normalized_probs data nonzero p q cur (some prev) avg)

/-- Probability the classic policy assigns to returning to `prev`. -/
def return_mass {n : ℕ} (data : Fin n → Fin n → ℚ)
    (nonzero : Fin n → Fin n → Bool) (p q : ℚ) (cur prev : Fin n)
    (avg : Fin n → ℚ) : ℚ :=
  slot_mass nonzero cur (fun j => decide (j = prev))
    (get_normalized_probs data nonzero p q cur (some prev) avg)

/-- Probability the extended policy assigns to returning to `prev`. -/
def return_mass_ext {n : ℕ} (data : Fin n → Fin n → ℚ)
    (nonzero : Fin n → Fin n → Bool) (p q : ℚ) (cur prev : Fin n)
    (avg : Fin n → ℚ) : ℚ :=
  slot_mass nonzero cur (fun j => decide (j = prev))
    (get_extended_normalized_probs data nonzero p q cur (some prev) avg)

/-- Triangle graph on nodes 0,1,2: every pair connected, all weights 1. -/
def maskT : Fin 3 → Fin 3 → Bool := fun i j => decide (i ≠ j)

/-- Weights of the triangle graph: 1 on every edge, 0 on the diagonal. -/
def dataT : Fin 3 → Fin 3 → ℚ := fun i j => if i = j then 0 else 1

/-- Average-weight vector of the triangle graph. -/
def avgT : Fin 3 → ℚ := get_average_weights dataT maskT

/-- Triangle-shaped 3-node graph with asymmetric weights chosen so that node
2, seen from node 0, is weak relative to node 0's average (4 < 7) but strong
relative to node 2's own average (4 ≥ 5/2): weights
row 0 = (0,10,4), row 1 = (1,0,1), row 2 = (4,1,0). -/
def dataC1 : Fin 3 → Fin 3 → ℚ := fun i j =>
  if i = 0 ∧ j = 1 then 10 else
  if i = 0 ∧ j = 2 then 4 else
  if i = 2 ∧ j = 0 then 4 else
  if i = j then 0 else 1

/-- Average-weight vector of the `dataC1` graph (7, 1, 5/2). -/
def avgC1 : Fin 3 → ℚ := get_average_weights dataC1 maskT

/-- 4-node graph: edges 0-1, 0-2, 1-2, 1-3, all weights 1.  From `cur = 1`
with `prev = 0`, node 3 is the unique non-common neighbor. -/
def mask4 : Fin 4 → Fin 4 → Bool := fun i j =>
  decide (i ≠ j) && !(decide ((i = 0 ∧ j = 3) ∨ (i = 3 ∧ j = 0) ∨ (i = 2 ∧ j = 3) ∨ (i = 3 ∧ j = 2)))

/-- Weights of the 4-node graph: 1 on every edge. -/
def data4 : Fin 4 → Fin 4 → ℚ := fun i j => if mask4 i j then 1 else 0

/-- Average-weight vector of the 4-node graph. -/
def avg4 : Fin 4 → ℚ := get_average_weights data4 mask4

/-- 2-node graph: a single edge 0-1 of weight 1. -/
def mask2 : Fin 2 → Fin 2 → Bool := fun i j => decide (i ≠ j)

/-- Weights of the 2-node graph. -/
def data2 : Fin 2 → Fin 2 → ℚ := fun i j => if i = j then 0 else 1

/-- Average-weight vector of the 2-node graph. -/
def avg2 : Fin 2 → ℚ := get_average_weights data2 mask2

/-- Same graph as `data2` but with garbage value 5 stored at the mask-false
cell (0,0). -/
def dataC4B : Fin 2 → Fin 2 → ℚ := fun i j => if i = 0 ∧ j = 0 then 5 else data2 i j

/-- Same graph as `data2` but with garbage value 7 stored at the mask-false
cell (0,0). -/
def dataC8 : Fin 2 → Fin 2 → ℚ := fun i j => if i = 0 ∧ j = 0 then 7 else data2 i j

/-- 2-node graph in which node 0 is isolated (its mask row is all false). -/
def maskIso : Fin 2 → Fin 2 → Bool := fun i j => decide (i = 1 ∧ j = 0)

/-- Weights for the isolated-node graph (values at mask-false cells are
irrelevant garbage). -/
def dataIso : Fin 2 → Fin 2 → ℚ := fun i j => if i = 1 ∧ j = 0 then 1 else 3

/-- 3-node directed graph in which `prev = 0` is NOT a neighbor of
`cur = 1`: row 0 = neighbors 1,2; row 1 = neighbor 2 only; row 2 = neighbors 0,1. -/
def maskC10 : Fin 3 → Fin 3 → Bool := fun i j =>
  decide ((i = 0 ∧ (j = 1 ∨ j = 2)) ∨ (i = 1 ∧ j = 2) ∨ (i = 2 ∧ (j = 0 ∨ j = 1)))

/-- Weights for the `maskC10` graph: 1 on every present edge. -/
def dataC10 : Fin 3 → Fin 3 → ℚ := fun i j => if maskC10 i j then 1 else 0

/-- Average-weight vector of the `maskC10` graph. -/
def avgC10 : Fin 3 → ℚ := get_average_weights dataC10 maskC10

/-- Membership in the neighbor list is exactly mask truth. -/
lemma mem_nbr_list {n : ℕ} {nonzero : Fin n → Fin n → Bool} {cur j : Fin n} :
    j ∈ nbr_list nonzero cur ↔ nonzero cur j = true := by
  simp [nbr_list, List.mem_filter, List.mem_finRange]

/-- The neighbor list has no duplicates. -/
lemma nbr_list_nodup {n : ℕ} (nonzero : Fin n → Fin n → Bool) (cur : Fin n) :
    (nbr_list nonzero cur).Nodup :=
  (List.nodup_finRange n).filter _

/-- Dividing every entry of a list by `c` divides its sum by `c`. -/
lemma sum_map_div (l : List ℚ) (c : ℚ) : (l.map (fun x => x / c)).sum = l.sum / c := by
  induction l with
  | nil => simp
  | cons a t ih => simp [ih, add_div]

/-- Normalization preserves length. -/
lemma normalize_length (l : List ℚ) : (normalize l).length = l.length := by
  simp [normalize]

/-- Normalization yields total mass 1 whenever the input sum is nonzero. -/
lemma normalize_sum_one (l : List ℚ) (h : l.sum ≠ 0) : (normalize l).sum = 1 := by
  rw [normalize, sum_map_div, div_self h]

/-- Splitting a mapped sum along a Boolean predicate on the indices. -/
lemma sum_map_filter_split {α : Type} (l : List α) (pr : α → Bool) (u : α → ℚ) :
    ((l.filter pr).map u).sum + ((l.filter (fun a => !(pr a))).map u).sum = (l.map u).sum := by
  induction l with
  | nil => simp
  | cons a t ih =>
    by_cases h : pr a <;> simp [List.filter_cons, h] <;> linarith

/-- Zipping a list with its own image under `f` pairs each element with its
image. -/
lemma zip_self_map {α β : Type} (l : List α) (f : α → β) :
    l.zip (l.map f) = l.map (fun a => (a, f a)) := by
  induction l with
  | nil => rfl
  | cons a t ih => simp [ih]

/-- Filtering a mapped list is mapping the filtered list. -/
lemma filter_map_comm {α β : Type} (l : List α) (f : α → β) (pr : β → Bool) :
    (l.map f).filter pr = (l.filter (fun a => pr (f a))).map f := by
  induction l with
  | nil => rfl
  | cons a t ih => by_cases h : pr (f a) <;> simp [List.filter_cons, h, ih]

/-- Evaluating `slot_mass` on a normalized masked row: it is the selected
partial sum of the biased weights over the total. -/
lemma slot_mass_normalize {n : ℕ} (nonzero : Fin n → Fin n → Bool) (cur : Fin n)
    (sel : Fin n → Bool) (u : Fin n → ℚ) :
    slot_mass nonzero cur sel (normalize ((nbr_list nonzero cur).map u))
      = (((nbr_list nonzero cur).filter sel).map u).sum
          / ((nbr_list nonzero cur).map u).sum := by
  unfold slot_mass normalize
  rw [List.map_map, zip_self_map, filter_map_comm, List.map_map]
  have h1 : ((nbr_list nonzero cur).filter fun a =>
        sel (a, ((fun x => x / ((nbr_list nonzero cur).map u).sum) ∘ u) a).1)
      = (nbr_list nonzero cur).filter sel := rfl
  rw [h1]
  have h2 : (((nbr_list nonzero cur).filter sel).map
        (Prod.snd ∘ fun a => (a, ((fun x => x / ((nbr_list nonzero cur).map u).sum) ∘ u) a)))
      = (((nbr_list nonzero cur).filter sel).map u).map
          (fun x => x / ((nbr_list nonzero cur).map u).sum) := by
    rw [List.map_map]
    rfl
  rw [h2, sum_map_div]

/-- In a duplicate-free list containing `a`, filtering for equality with `a`
yields exactly `[a]`. -/
lemma filter_eq_single {n : ℕ} (l : List (Fin n)) (a : Fin n) (hn : l.Nodup)
    (ha : a ∈ l) : l.filter (fun j => decide (j = a)) = [a] := by
  induction l with
  | nil => cases ha
  | cons b t ih =>
    rw [List.filter_cons]
    by_cases hb : b = a
    · subst hb
      have hnotin : b ∉ t := (List.nodup_cons.mp hn).1
      have hnil : t.filter (fun j => decide (j = b)) = [] := by
        rw [List.filter_eq_nil_iff]
        intro x hx
        simp only [decide_eq_true_eq]
        intro hcon
        exact hnotin (hcon ▸ hx)
      simp [hnil]
    · have ha' : a ∈ t := by
        rcases List.mem_cons.mp ha with h | h
        · exact absurd h.symm hb
        · exact h
      simp only [decide_eq_true_eq]
      rw [if_neg hb]
      exact ih (List.nodup_cons.mp hn).2 ha'

/-- Closed form of the classic second-order biased row: the in-place update
sequence amounts to a three-way case split per position. -/
lemma classic_biased_eq {n : ℕ} (data : Fin n → Fin n → ℚ)
    (nonzero : Fin n → Fin n → Bool) (p q : ℚ) (cur prev j : Fin n) :
    classic_biased data nonzero p q cur prev j
      = if j = prev then data cur j / p
        else if nonzero cur j && !(nonzero prev j) then data cur j / q
        else data cur j := by
  unfold classic_biased classic_q_biased classic_non_com
  by_cases h : j = prev
  · subst h
    simp [Function.update_same]
  · simp [Function.update_noteq h, h]

/-- Closed form of the extended second-order biased row. -/
lemma ext_biased_eq {n : ℕ} (data : Fin n → Fin n → ℚ)
    (nonzero : Fin n → Fin n → Bool) (avg : Fin n → ℚ) (p q : ℚ) (cur prev j : Fin n) :
    ext_biased data nonzero avg p q cur prev j
      = if j = prev then data cur j / p
        else if nonzero cur j && decide (data prev j < avg j) then
          data cur j * ext_alpha data avg q cur prev j
        else data cur j := by
  unfold ext_biased ext_q_biased ext_inout
  by_cases h : j = prev
  · subst h
    simp [Function.update_same]
  · simp [Function.update_noteq h, h]

/-- A position in the in-out candidate set is a neighbor of `cur`, differs
from `prev`, and its weight seen from `prev` is below its own average. -/
lemma ext_inout_true_elim {n : ℕ} {data : Fin n → Fin n → ℚ}
    {nonzero : Fin n → Fin n → Bool} {avg : Fin n → ℚ} {cur prev j : Fin n}
    (h : ext_inout data nonzero avg cur prev j = true) :
    j ≠ prev ∧ nonzero cur j = true ∧ data prev j < avg j := by
  unfold ext_inout at h
  by_cases hj : j = prev
  · subst hj
    rw [Function.update_same] at h
    cases h
  · rw [Function.update_noteq hj] at h
    simp only [Bool.and_eq_true, decide_eq_true_eq] at h
    exact ⟨hj, h.1, h.2⟩

/-- Positivity of every classic biased entry at a neighbor position. -/
lemma classic_biased_pos {n : ℕ} {data : Fin n → Fin n → ℚ}
    {nonzero : Fin n → Fin n → Bool} {p q : ℚ} {cur prev j : Fin n}
    (hp : 0 < p) (hq : 0 < q)
    (hpos : ∀ k, nonzero cur k = true → 0 < data cur k)
    (hj : nonzero cur j = true) :
    0 < classic_biased data nonzero p q cur prev j := by
  rw [classic_biased_eq]
  split
  · exact div_pos (hpos j hj) hp
  · split
    · exact div_pos (hpos j hj) hq
    · exact hpos j hj

/-- Positivity of the out-bias factor `alpha`: given `q > 0` and a
nonnegative weight below its own positive average, the interpolated bias is
strictly positive (it is at least `min 1 (1/q)`). -/
lemma ext_alpha_pos {n : ℕ} {data : Fin n → Fin n → ℚ} {avg : Fin n → ℚ}
    {q : ℚ} {cur prev j : Fin n}
    (hq : 0 < q) (hnn : 0 ≤ data prev j) (hlt : data prev j < avg j) :
    0 < ext_alpha data avg q cur prev j := by
  have havg : 0 < avg j := lt_of_le_of_lt hnn hlt
  have hiq : 0 < 1 / q := by positivity
  unfold ext_alpha
  split
  · exact lt_min one_pos hiq
  · have ht0 : 0 ≤ data prev j / avg j := div_nonneg hnn havg.le
    have ht1 : data prev j / avg j < 1 := (div_lt_one havg).mpr hlt
    rcases le_or_lt (1 / q) 1 with hc | hc
    · have hmul : 0 ≤ (1 - 1 / q) * (data prev j / avg j) :=
        mul_nonneg (by linarith) ht0
      linarith
    · have hneg : 1 - 1 / q < 0 := by linarith
      have hmul : (1 - 1 / q) * 1 < (1 - 1 / q) * (data prev j / avg j) :=
        mul_lt_mul_of_neg_left ht1 hneg
      linarith

/-- Positivity of every extended biased entry at a neighbor position. -/
lemma ext_biased_pos {n : ℕ} {data : Fin n → Fin n → ℚ}
    {nonzero : Fin n → Fin n → Bool} {avg : Fin n → ℚ} {p q : ℚ} {cur prev j : Fin n}
    (hp : 0 < p) (hq : 0 < q)
    (hnn : ∀ i k, 0 ≤ data i k)
    (hpos : ∀ k, nonzero cur k = true → 0 < data cur k)
    (hj : nonzero cur j = true) :
    0 < ext_biased data nonzero avg p q cur prev j := by
  rw [ext_biased_eq]
  split
  · exact div_pos (hpos j hj) hp
  · split
    · rename_i hcond
      simp only [Bool.and_eq_true, decide_eq_true_eq] at hcond
      exact mul_pos (hpos j hj) (ext_alpha_pos hq (hnn prev j) hcond.2)
    · exact hpos j hj

/-- Two rows that agree on the neighbor positions of `cur` produce the same
masked extraction. -/
lemma masked_map_congr {n : ℕ} (nonzero : Fin n → Fin n → Bool) (cur : Fin n)
    {u v : Fin n → ℚ} (h : ∀ j, nonzero cur j = true → u j = v j) :
    (nbr_list nonzero cur).map u = (nbr_list nonzero cur).map v := by
  apply List.map_congr_left
  intro j hj
  exact h j (mem_nbr_list.mp hj)

/-- Shared shape/total/positivity bundle for a normalized masked row whose
biased entries are positive at every neighbor position. -/
lemma normalized_props {n : ℕ} (nonzero : Fin n → Fin n → Bool) (cur : Fin n)
    (u : Fin n → ℚ) (hu : ∀ j, nonzero cur j = true → 0 < u j)
    (hex : ∃ j, nonzero cur j = true) :
    (normalize ((nbr_list nonzero cur).map u)).length = (nbr_list nonzero cur).length
    ∧ (normalize ((nbr_list nonzero cur).map u)).sum = 1
    ∧ ∀ x ∈ normalize ((nbr_list nonzero cur).map u), 0 < x := by
  obtain ⟨j0, hj0⟩ := hex
  have hj0m : j0 ∈ nbr_list nonzero cur := mem_nbr_list.mpr hj0
  have hpos : ∀ x ∈ (nbr_list nonzero cur).map u, 0 < x := by
    intro x hx
    obtain ⟨j, hj, rfl⟩ := List.mem_map.mp hx
    exact hu j (mem_nbr_list.mp hj)
  have hne : (nbr_list nonzero cur).map u ≠ [] := by
    intro hcon
    rw [List.map_eq_nil_iff] at hcon
    rw [hcon] at hj0m
    cases hj0m
  have hsum : 0 < ((nbr_list nonzero cur).map u).sum :=
    List.sum_pos _ hpos hne
  refine ⟨(normalize_length _).trans (List.length_map _ _), normalize_sum_one _ (ne_of_gt hsum), ?_⟩
  intro x hx
  obtain ⟨y, hy, rfl⟩ := List.mem_map.mp hx
  exact div_pos (hpos y hy) hsum

/-- Strict monotonicity of `x ↦ x/(x+R)` transported along `p`-division:
with a positive weight `w` and positive rest-mass `R`, shrinking the divisor
from `pa` to `pb` strictly increases the normalized share of `w`. -/
lemma mass_frac_strict (w R pa pb : ℚ) (hw : 0 < w) (hR : 0 < R)
    (hpb : 0 < pb) (hba : pb < pa) :
    (w / pa) / (w / pa + R) < (w / pb) / (w / pb + R) := by
  have hpa : 0 < pa := hpb.trans hba
  have hxy : w / pa < w / pb := by
    rw [div_lt_div_iff hpa hpb]
    exact (mul_lt_mul_left hw).mpr hba
  have hx : 0 < w / pa := div_pos hw hpa
  have hy : 0 < w / pb := div_pos hw hpb
  rw [div_lt_div_iff (by linarith) (by linarith)]
  nlinarith

/-- Concrete enumeration of `Fin 2` indices. -/
lemma finRange_two : List.finRange 2 = [0, 1] := by decide

/-- Concrete enumeration of `Fin 3` indices. -/
lemma finRange_three : List.finRange 3 = [0, 1, 2] := by decide

/-- Concrete enumeration of `Fin 4` indices. -/
lemma finRange_four : List.finRange 4 = [0, 1, 2, 3] := by decide

/-- Neighbors of node 1 in the triangle graph. -/
lemma nbrT1 : nbr_list maskT 1 = [0, 2] := by
  simp [nbr_list, finRange_three, maskT]

/-- Neighbors of node 1 in the 4-node graph. -/
lemma nbr4_1 : nbr_list mask4 1 = [0, 2, 3] := by
  simp +decide [nbr_list, finRange_four, mask4]

/-- Neighbors of node 1 in the 2-node graph. -/
lemma nbr2_1 : nbr_list mask2 1 = [0] := by
  simp [nbr_list, finRange_two, mask2]

/-- Claim C2 (confirmed): for a second-order step the classic policy
coincides with the spec-worded bias (copy of current's row, `/q` exactly at
neighbors of `cur` not adjacent to `prev` with `prev` forced out, `/p` at
`prev`, masked restriction in row order, normalization by the sum); for a
first-order step it is the plain normalized masked row. -/
theorem C2_thm {n : ℕ} (data : Fin n → Fin n → ℚ) (nonzero : Fin n → Fin n → Bool)
    (p q : ℚ) (cur prev : Fin n) (avg : Fin n → ℚ) :
    get_normalized_probs data nonzero p q cur (some prev) avg
      = normalize ((nbr_list nonzero cur).map (classic_biased_spec data nonzero p q cur prev))
    ∧ get_normalized_probs data nonzero p q cur none avg
      = normalize ((nbr_list nonzero cur).map (data cur)) := by
  constructor
  · have hfun : classic_biased data nonzero p q cur prev
        = classic_biased_spec data nonzero p q cur prev := by
      funext j
      rw [classic_biased_eq]
      rfl
    show normalize _ = _
    rw [hfun]
  · rfl

/-- Claim C1 (amended): the extended second-order step equals the claim's
description with BOTH the in-out classification and the ratio taken against
the candidate's own average neighbor weight `avg k` (not `avg prev`); and for
every in-out candidate `k` the ratio `data prev k / avg k` lies in `[0, 1)`
given nonnegative weights. -/
theorem C1_thm {n : ℕ} (data : Fin n → Fin n → ℚ) (nonzero : Fin n → Fin n → Bool)
    (avg : Fin n → ℚ) (p q : ℚ) (cur prev : Fin n)
    (hnn : ∀ i j, 0 ≤ data i j) :
    get_extended_normalized_probs data nonzero p q cur (some prev) avg
      = normalize ((nbr_list nonzero cur).map (ext_amended_biased data nonzero avg p q cur prev))
    ∧ ∀ k, ext_inout data nonzero avg cur prev k = true →
        0 ≤ data prev k / avg k ∧ data prev k / avg k < 1 := by
  constructor
  · have hfun : ext_biased data nonzero avg p q cur prev
        = ext_amended_biased data nonzero avg p q cur prev := by
      funext j
      rw [ext_biased_eq]
      unfold ext_amended_biased ext_alpha
      rfl
    show normalize _ = _
    rw [hfun]
  · intro k hk
    obtain ⟨hkp, hkm, hlt⟩ := ext_inout_true_elim hk
    have havg : 0 < avg k := lt_of_le_of_lt (hnn prev k) hlt
    exact ⟨div_nonneg (hnn prev k) havg.le, (div_lt_one havg).mpr hlt⟩

/-- Witness for C1 at the concrete asymmetric 3-node graph. -/
theorem C1_witness :
    (∀ i j, (0:ℚ) ≤ dataC1 i j)
    ∧ (get_extended_normalized_probs dataC1 maskT 1 2 1 (some 0) avgC1
        = normalize ((nbr_list maskT 1).map (ext_amended_biased dataC1 maskT avgC1 1 2 1 0))
      ∧ ∀ k, ext_inout dataC1 maskT avgC1 1 0 k = true →
          0 ≤ dataC1 0 k / avgC1 k ∧ dataC1 0 k / avgC1 k < 1) :=
  ⟨by decide, C1_thm dataC1 maskT avgC1 1 2 1 0 (by decide)⟩

/-- Counterexample to C1 as stated: on the asymmetric 3-node graph with
`q = 2`, the distribution the claim's wording predicts (classification and
ratio against `avg prev = 7`) differs from what the code computes
(classification against each candidate's own average). -/
theorem C1_counterexample :
    ext_claim_probs dataC1 maskT avgC1 1 2 1 0
      ≠ get_extended_normalized_probs dataC1 maskT 1 2 1 (some 0) avgC1 := by
  have h1 : ext_claim_probs dataC1 maskT avgC1 1 2 1 0 = [14/25, 11/25] := by
    simp +decide [ext_claim_probs, normalize, nbrT1, ext_claim_biased, dataC1, avgC1,
      get_average_weights, finRange_three, nbr_list, maskT]
    norm_num
  have h2 : get_extended_normalized_probs dataC1 maskT 1 2 1 (some 0) avgC1 = [1/2, 1/2] := by
    simp +decide [get_extended_normalized_probs, normalize, nbrT1, ext_biased, ext_q_biased,
      ext_inout, ext_alpha, Function.update, dataC1, avgC1, get_average_weights,
      finRange_three, nbr_list, maskT]
    norm_num
  rw [h1, h2]
  intro hcon
  have h3 : (14/25 : ℚ) = 1/2 := by
    have h4 := congrArg List.headI hcon
    simpa using h4
  norm_num at h3

/-- Claim C3 (amended): neither policy performs any validity check; when
`cur` has no neighbors both return the EMPTY list silently (in the floating
implementation a zero unnormalized sum likewise yields an invalid NaN vector
with no error raised). -/
theorem C3_thm {n : ℕ} (data : Fin n → Fin n → ℚ) (nonzero : Fin n → Fin n → Bool)
    (p q : ℚ) (cur : Fin n) (prevOpt : Option (Fin n)) (avg : Fin n → ℚ)
    (h : ∀ j, nonzero cur j = false) :
    get_normalized_probs data nonzero p q cur prevOpt avg = []
    ∧ get_extended_normalized_probs data nonzero p q cur prevOpt avg = [] := by
  have hnil : nbr_list nonzero cur = [] := by
    rw [nbr_list, List.filter_eq_nil_iff]
    intro j hj
    simp [h j]
  cases prevOpt <;>
    simp [get_normalized_probs, get_extended_normalized_probs, normalize, hnil]

/-- Witness for C3 at the concrete isolated-node graph. -/
theorem C3_witness :
    (∀ j, maskIso 0 j = false)
    ∧ (get_normalized_probs dataIso maskIso 1 1 0 (some 1)
          (get_average_weights dataIso maskIso) = []
      ∧ get_extended_normalized_probs dataIso maskIso 1 1 0 (some 1)
          (get_average_weights dataIso maskIso) = []) :=
  ⟨by decide, C3_thm dataIso maskIso 1 1 0 (some 1) _ (by decide)⟩

/-- Counterexample to C3 as stated: called on the isolated node 0, both
policies return normally with an empty distribution — no explicit failure
signal is surfaced. -/
theorem C3_counterexample :
    get_normalized_probs dataIso maskIso 1 1 0 none (get_average_weights dataIso maskIso) = []
    ∧ get_extended_normalized_probs dataIso maskIso 1 1 0 none
        (get_average_weights dataIso maskIso) = [] := by
  constructor <;>
    simp +decide [get_normalized_probs, get_extended_normalized_probs, normalize,
      nbr_list, finRange_two, maskIso]

/-- Claim C4 (amended): the classic policy reads weights only at mask-true
positions — two weight matrices agreeing wherever the mask is true produce
identical classic outputs, for any `avg` vectors and with or without a
previous node.  (The independence FAILS for `get_average_weights`, which sums
whole rows: see the counterexample.) -/
theorem C4_thm {n : ℕ} (data data' : Fin n → Fin n → ℚ) (nonzero : Fin n → Fin n → Bool)
    (p q : ℚ) (cur : Fin n) (prevOpt : Option (Fin n)) (avg avg' : Fin n → ℚ)
    (h : ∀ i j, nonzero i j = true → data i j = data' i j) :
    get_normalized_probs data nonzero p q cur prevOpt avg
      = get_normalized_probs data' nonzero p q cur prevOpt avg' := by
  cases prevOpt with
  | none =>
    show normalize _ = normalize _
    rw [masked_map_congr nonzero cur (fun j hj => h cur j hj)]
  | some prev =>
    have hcong : ∀ j, nonzero cur j = true →
        classic_biased data nonzero p q cur prev j
          = classic_biased data' nonzero p q cur prev j := by
      intro j hj
      rw [classic_biased_eq, classic_biased_eq, h cur j hj]
    show normalize _ = normalize _
    rw [masked_map_congr nonzero cur hcong]

/-- Witness for C4: perturbing the mask-false cell (0,0) does not change the
classic output (even with the average vector recomputed from the perturbed
matrix). -/
theorem C4_witness :
    (∀ i j, mask2 i j = true → data2 i j = dataC4B i j)
    ∧ get_normalized_probs data2 mask2 1 1 1 (some 0) avg2
        = get_normalized_probs dataC4B mask2 1 1 1 (some 0)
            (get_average_weights dataC4B mask2) :=
  ⟨by decide, C4_thm data2 dataC4B mask2 1 1 1 (some 0) avg2 _ (by decide)⟩

/-- Counterexample to C4 as stated: the same perturbation of the mask-false
cell (0,0) changes `get_average_weights` (1 becomes 6), because the degree
numerator is the FULL row sum. -/
theorem C4_counterexample :
    (∀ i j, mask2 i j = true → data2 i j = dataC4B i j)
    ∧ get_average_weights data2 mask2 0 ≠ get_average_weights dataC4B mask2 0 := by
  constructor
  · decide
  · have h1 : get_average_weights data2 mask2 0 = 1 := by
      simp +decide [get_average_weights, nbr_list, finRange_two, mask2, data2]
    have h2 : get_average_weights dataC4B mask2 0 = 6 := by
      simp +decide [get_average_weights, nbr_list, finRange_two, mask2, dataC4B, data2]
      norm_num
    rw [h1, h2]
    norm_num

/-- Claim C8 (amended): `get_average_weights` divides the FULL row sum (all
columns, mask-false included) by the mask-true count; it agrees with the
claim's masked average exactly when the weights at mask-false positions of
the row vanish. -/
theorem C8_thm {n : ℕ} (data : Fin n → Fin n → ℚ) (nonzero : Fin n → Fin n → Bool)
    (i : Fin n) (h0 : ∀ j, nonzero i j = false → data i j = 0) :
    get_average_weights data nonzero i = masked_average_weights data nonzero i := by
  unfold get_average_weights masked_average_weights
  congr 1
  rw [← sum_map_filter_split (List.finRange n) (fun j => nonzero i j) (data i)]
  have hz : (((List.finRange n).filter (fun j => !(nonzero i j))).map (data i)).sum = 0 := by
    apply List.sum_eq_zero
    intro x hx
    obtain ⟨j, hj, rfl⟩ := List.mem_map.mp hx
    have hjf := (List.mem_filter.mp hj).2
    simp only [Bool.not_eq_true'] at hjf
    exact h0 j hjf
  rw [hz, add_zero]
  rfl

/-- Witness for C8 at the triangle graph, whose mask-false cells hold 0. -/
theorem C8_witness :
    (∀ j, maskT 0 j = false → dataT 0 j = 0)
    ∧ get_average_weights dataT maskT 0 = masked_average_weights dataT maskT 0 :=
  ⟨by decide, C8_thm dataT maskT 0 (by decide)⟩

/-- Counterexample to C8 as stated: with garbage 7 at the mask-false cell
(0,0), row 0 has a mask-true column, yet the code returns 8 where the claim's
masked average is 1. -/
theorem C8_counterexample :
    (nbr_list mask2 0).length ≠ 0
    ∧ get_average_weights dataC8 mask2 0 ≠ masked_average_weights dataC8 mask2 0 := by
  constructor
  · simp [nbr_list, finRange_two, mask2]
  · have h1 : get_average_weights dataC8 mask2 0 = 8 := by
      simp +decide [get_average_weights, nbr_list, finRange_two, mask2, dataC8, data2]
      norm_num
    have h2 : masked_average_weights dataC8 mask2 0 = 1 := by
      simp +decide [masked_average_weights, nbr_list, finRange_two, mask2, dataC8, data2]
    rw [h1, h2]
    norm_num

/-- Claim C9 (confirmed): with `p = 1` and `q = 1` every bias is neutral, so
for ANY input the classic and extended second-order computations both equal
the first-order computation on the same row; on the all-ones triangle with
`cur = 1`, `prev = 0` both return `[1/2, 1/2]` (slots = nodes 0 and 2). -/
theorem C9_thm {n : ℕ} (data : Fin n → Fin n → ℚ) (nonzero : Fin n → Fin n → Bool)
    (cur prev : Fin n) (avg : Fin n → ℚ) :
    get_normalized_probs data nonzero 1 1 cur (some prev) avg
      = get_normalized_probs data nonzero 1 1 cur none avg
    ∧ get_extended_normalized_probs data nonzero 1 1 cur (some prev) avg
      = get_normalized_probs data nonzero 1 1 cur none avg
    ∧ get_normalized_probs dataT maskT 1 1 1 (some 0) avgT = [1/2, 1/2]
    ∧ get_extended_normalized_probs dataT maskT 1 1 1 (some 0) avgT = [1/2, 1/2] := by
  refine ⟨?_, ?_, ?_, ?_⟩
  · have hfun : classic_biased data nonzero 1 1 cur prev = data cur := by
      funext j
      rw [classic_biased_eq]
      split
      · exact div_one _
      · split
        · exact div_one _
        · rfl
    show normalize _ = normalize _
    rw [hfun]
  · have halpha : ∀ j, ext_alpha data avg 1 cur prev j = 1 := by
      intro j
      unfold ext_alpha
      split <;> norm_num
    have hfun : ext_biased data nonzero avg 1 1 cur prev = data cur := by
      funext j
      rw [ext_biased_eq]
      split
      · exact div_one _
      · split
        · rw [halpha, mul_one]
        · rfl
    show normalize _ = normalize _
    rw [hfun]
  · simp +decide [get_normalized_probs, normalize, nbrT1, classic_biased, classic_q_biased,
      classic_non_com, Function.update, dataT]
    norm_num
  · simp +decide [get_extended_normalized_probs, normalize, nbrT1, ext_biased, ext_q_biased,
      ext_inout, ext_alpha, Function.update, dataT, avgT, get_average_weights,
      finRange_three, nbr_list, maskT]
    norm_num

/-- Claim C5 (confirmed): for a valid call (some neighbor, nonnegative
weights that are strictly positive on current's masked row, `p, q > 0`),
under either policy and with or without a previous node, the output has one
entry per mask-true position of current's row, sums exactly to 1, and every
entry is strictly positive. -/
theorem C5_thm {n : ℕ} (data : Fin n → Fin n → ℚ) (nonzero : Fin n → Fin n → Bool)
    (p q : ℚ) (cur : Fin n) (prevOpt : Option (Fin n)) (avg : Fin n → ℚ)
    (hp : 0 < p) (hq : 0 < q)
    (hex : ∃ j, nonzero cur j = true)
    (hnn : ∀ i j, 0 ≤ data i j)
    (hpos : ∀ j, nonzero cur j = true → 0 < data cur j) :
    ((get_normalized_probs data nonzero p q cur prevOpt avg).length
        = (nbr_list nonzero cur).length
      ∧ (get_normalized_probs data nonzero p q cur prevOpt avg).sum = 1
      ∧ ∀ x ∈ get_normalized_probs data nonzero p q cur prevOpt avg, 0 < x)
    ∧ ((get_extended_normalized_probs data nonzero p q cur prevOpt avg).length
        = (nbr_list nonzero cur).length
      ∧ (get_extended_normalized_probs data nonzero p q cur prevOpt avg).sum = 1
      ∧ ∀ x ∈ get_extended_normalized_probs data nonzero p q cur prevOpt avg, 0 < x) := by
  constructor
  · cases prevOpt with
    | none => exact normalized_props nonzero cur (data cur) hpos hex
    | some prev =>
        exact normalized_props nonzero cur _
          (fun j hj => classic_biased_pos hp hq hpos hj) hex
  · cases prevOpt with
    | none => exact normalized_props nonzero cur (data cur) hpos hex
    | some prev =>
        exact normalized_props nonzero cur _
          (fun j hj => ext_biased_pos hp hq hnn hpos hj) hex

/-- Witness for C5 at the triangle graph with `p = q = 1`, second order. -/
theorem C5_witness :
    (0:ℚ) < 1 ∧ (∃ j, maskT 1 j = true) ∧ (∀ i j, (0:ℚ) ≤ dataT i j)
    ∧ (∀ j, maskT 1 j = true → 0 < dataT 1 j)
    ∧ (((get_normalized_probs dataT maskT 1 1 1 (some 0) avgT).length
          = (nbr_list maskT 1).length
        ∧ (get_normalized_probs dataT maskT 1 1 1 (some 0) avgT).sum = 1
        ∧ ∀ x ∈ get_normalized_probs dataT maskT 1 1 1 (some 0) avgT, 0 < x)
      ∧ ((get_extended_normalized_probs dataT maskT 1 1 1 (some 0) avgT).length
          = (nbr_list maskT 1).length
        ∧ (get_extended_normalized_probs dataT maskT 1 1 1 (some 0) avgT).sum = 1
        ∧ ∀ x ∈ get_extended_normalized_probs dataT maskT 1 1 1 (some 0) avgT, 0 < x)) :=
  ⟨by norm_num, ⟨0, by decide⟩, by decide, by decide,
    C5_thm dataT maskT 1 1 1 (some 0) avgT (by norm_num) (by norm_num)
      ⟨0, by decide⟩ (by decide) (by decide)⟩

/-- Claim C10 (confirmed): when `prev` is present but NOT a neighbor of
`cur`, the `/p` update touches only a position removed by the final mask
filtering, so under either policy the output is identical for all `p > 0`,
and (given positive masked weights) it is still a well-formed distribution
summing to 1. -/
theorem C10_thm {n : ℕ} (data : Fin n → Fin n → ℚ) (nonzero : Fin n → Fin n → Bool)
    (p p' q : ℚ) (cur prev : Fin n) (avg : Fin n → ℚ)
    (hmask : nonzero cur prev = false)
    (hp : 0 < p) (hp' : 0 < p') (hq : 0 < q)
    (hnn : ∀ i j, 0 ≤ data i j)
    (hpos : ∀ j, nonzero cur j = true → 0 < data cur j)
    (hex : ∃ j, nonzero cur j = true) :
    get_normalized_probs data nonzero p q cur (some prev) avg
      = get_normalized_probs data nonzero p' q cur (some prev) avg
    ∧ get_extended_normalized_probs data nonzero p q cur (some prev) avg
      = get_extended_normalized_probs data nonzero p' q cur (some prev) avg
    ∧ (get_normalized_probs data nonzero p q cur (some prev) avg).sum = 1
    ∧ (get_extended_normalized_probs data nonzero p q cur (some prev) avg).sum = 1 := by
  have hne : ∀ j, nonzero cur j = true → j ≠ prev := by
    intro j hj hcon
    rw [hcon, hmask] at hj
    cases hj
  refine ⟨?_, ?_, ?_, ?_⟩
  · have hcong : ∀ j, nonzero cur j = true →
        classic_biased data nonzero p q cur prev j
          = classic_biased data nonzero p' q cur prev j := by
      intro j hj
      rw [classic_biased_eq, classic_biased_eq, if_neg (hne j hj), if_neg (hne j hj)]
    show normalize _ = normalize _
    rw [masked_map_congr nonzero cur hcong]
  · have hcong : ∀ j, nonzero cur j = true →
        ext_biased data nonzero avg p q cur prev j
          = ext_biased data nonzero avg p' q cur prev j := by
      intro j hj
      rw [ext_biased_eq, ext_biased_eq, if_neg (hne j hj), if_neg (hne j hj)]
    show normalize _ = normalize _
    rw [masked_map_congr nonzero cur hcong]
  · exact (normalized_props nonzero cur _
      (fun j hj => classic_biased_pos hp hq hpos hj) hex).2.1
  · exact (normalized_props nonzero cur _
      (fun j hj => ext_biased_pos hp hq hnn hpos hj) hex).2.1

/-- Witness for C10 at the directed 3-node graph in which node 0 is not a
neighbor of node 1. -/
theorem C10_witness :
    maskC10 1 0 = false ∧ (0:ℚ) < 1 ∧ (0:ℚ) < 1/2
    ∧ (∀ i j, (0:ℚ) ≤ dataC10 i j) ∧ (∀ j, maskC10 1 j = true → 0 < dataC10 1 j)
    ∧ (get_normalized_probs dataC10 maskC10 1 1 1 (some 0) avgC10
        = get_normalized_probs dataC10 maskC10 (1/2) 1 1 (some 0) avgC10
      ∧ get_extended_normalized_probs dataC10 maskC10 1 1 1 (some 0) avgC10
        = get_extended_normalized_probs dataC10 maskC10 (1/2) 1 1 (some 0) avgC10
      ∧ (get_normalized_probs dataC10 maskC10 1 1 1 (some 0) avgC10).sum = 1
      ∧ (get_extended_normalized_probs dataC10 maskC10 1 1 1 (some 0) avgC10).sum = 1) :=
  ⟨by decide, by norm_num, by norm_num, by decide, by decide,
    C10_thm dataC10 maskC10 1 (1/2) 1 1 0 avgC10 (by decide) (by norm_num) (by norm_num)
      (by norm_num) (by decide) (by decide) ⟨2, by decide⟩⟩

/-- Claim C6 (amended): for the classic policy, increasing `q` does NOT
INCREASE (weakly decreases) the relative probability mass on the non-common
neighbors of `cur` — dividing their raw weights by a larger `q` can only
shrink their share. -/
theorem C6_thm {n : ℕ} (data : Fin n → Fin n → ℚ) (nonzero : Fin n → Fin n → Bool)
    (p q q' : ℚ) (cur prev : Fin n) (avg : Fin n → ℚ)
    (hp : 0 < p) (hq : 0 < q) (hq' : 0 < q') (hle : q ≤ q')
    (hnn : ∀ i j, 0 ≤ data i j)
    (hpos : ∀ j, nonzero cur j = true → 0 < data cur j)
    (hex : ∃ j, nonzero cur j = true) :
    noncommon_mass data nonzero p q' cur prev avg
      ≤ noncommon_mass data nonzero p q cur prev avg := by
  unfold noncommon_mass get_normalized_probs
  rw [slot_mass_normalize, slot_mass_normalize]
  set L := nbr_list nonzero cur with hL
  set nc := classic_non_com nonzero cur prev with hnc
  have hncdef : ∀ j, nc j = true → j ≠ prev ∧ (nonzero cur j && !(nonzero prev j)) = true := by
    intro j hj
    have hjp : j ≠ prev := by
      intro hcon
      rw [hnc] at hj
      unfold classic_non_com at hj
      rw [hcon, Function.update_same] at hj
      cases hj
    refine ⟨hjp, ?_⟩
    rw [hnc] at hj
    unfold classic_non_com at hj
    rwa [Function.update_noteq hjp] at hj
  have hAq : ∀ qq : ℚ, ((L.filter nc).map (classic_biased data nonzero p qq cur prev)).sum
      = ((L.filter nc).map (data cur)).sum / qq := by
    intro qq
    have hcong : ∀ j ∈ L.filter nc,
        classic_biased data nonzero p qq cur prev j = data cur j / qq := by
      intro j hj
      obtain ⟨hjp, hcond⟩ := hncdef j (List.mem_filter.mp hj).2
      rw [classic_biased_eq, if_neg hjp, if_pos hcond]
    rw [List.map_congr_left hcong]
    rw [show ((L.filter nc).map fun j => data cur j / qq)
        = ((L.filter nc).map (data cur)).map (fun x => x / qq) from
      (List.map_map (fun x => x / qq) (data cur) (L.filter nc)).symm]
    exact sum_map_div _ _
  have hBcong : ((L.filter (fun j => !(nc j))).map
        (classic_biased data nonzero p q' cur prev)).sum
      = ((L.filter (fun j => !(nc j))).map (classic_biased data nonzero p q cur prev)).sum := by
    congr 1
    apply List.map_congr_left
    intro j hj
    have hjnc : nc j = false := by
      have hmem := (List.mem_filter.mp hj).2
      simpa using hmem
    by_cases hjp : j = prev
    · rw [classic_biased_eq, classic_biased_eq, if_pos hjp, if_pos hjp]
    · have hcond : (nonzero cur j && !(nonzero prev j)) = false := by
        rw [hnc] at hjnc
        unfold classic_non_com at hjnc
        rwa [Function.update_noteq hjp] at hjnc
      rw [classic_biased_eq, classic_biased_eq, if_neg hjp, if_neg hjp, hcond]
      simp
  have hsplit : ∀ qq : ℚ, (L.map (classic_biased data nonzero p qq cur prev)).sum
      = ((L.filter nc).map (classic_biased data nonzero p qq cur prev)).sum
        + ((L.filter (fun j => !(nc j))).map (classic_biased data nonzero p qq cur prev)).sum :=
    fun qq => (sum_map_filter_split L nc _).symm
  have hT : ∀ qq : ℚ, 0 < qq →
      0 < (L.map (classic_biased data nonzero p qq cur prev)).sum := by
    intro qq hqq
    apply List.sum_pos
    · intro x hx
      obtain ⟨j, hj, rfl⟩ := List.mem_map.mp hx
      exact classic_biased_pos hp hqq hpos (mem_nbr_list.mp hj)
    · obtain ⟨j0, hj0⟩ := hex
      intro hcon
      rw [List.map_eq_nil_iff] at hcon
      have hmem : j0 ∈ L := mem_nbr_list.mpr hj0
      rw [hcon] at hmem
      cases hmem
  have hTqAB : 0 < ((L.filter nc).map (data cur)).sum / q
      + ((L.filter (fun j => !(nc j))).map (classic_biased data nonzero p q cur prev)).sum := by
    have hbase := hT q hq
    rwa [hsplit q, hAq q] at hbase
  have hTq'AB : 0 < ((L.filter nc).map (data cur)).sum / q'
      + ((L.filter (fun j => !(nc j))).map (classic_biased data nonzero p q cur prev)).sum := by
    have hbase := hT q' hq'
    rwa [hsplit q', hAq q', hBcong] at hbase
  rw [hsplit q, hsplit q', hAq q, hAq q', hBcong]
  have hApos : 0 ≤ ((L.filter nc).map (data cur)).sum := by
    apply List.sum_nonneg
    intro x hx
    obtain ⟨j, hj, rfl⟩ := List.mem_map.mp hx
    exact (hpos j (mem_nbr_list.mp (List.mem_filter.mp hj).1)).le
  have hBpos : 0 ≤ ((L.filter (fun j => !(nc j))).map
      (classic_biased data nonzero p q cur prev)).sum := by
    apply List.sum_nonneg
    intro x hx
    obtain ⟨j, hj, rfl⟩ := List.mem_map.mp hx
    exact (classic_biased_pos hp hq hpos (mem_nbr_list.mp (List.mem_filter.mp hj).1)).le
  have hx : ((L.filter nc).map (data cur)).sum / q'
      ≤ ((L.filter nc).map (data cur)).sum / q := by
    rw [div_le_div_iff hq' hq]
    exact mul_le_mul_of_nonneg_left hle hApos
  rw [div_le_div_iff hTq'AB hTqAB]
  nlinarith [mul_le_mul_of_nonneg_right hx hBpos]

/-- Witness for C6 at the 4-node graph (`q` raised from 1 to 2). -/
theorem C6_witness :
    (0:ℚ) < 1 ∧ (1:ℚ) ≤ 2 ∧ (∀ i j, (0:ℚ) ≤ data4 i j)
    ∧ (∀ j, mask4 1 j = true → 0 < data4 1 j)
    ∧ noncommon_mass data4 mask4 1 2 1 0 avg4 ≤ noncommon_mass data4 mask4 1 1 1 0 avg4 :=
  ⟨by norm_num, by norm_num, by decide, by decide,
    C6_thm data4 mask4 1 1 2 1 0 avg4 (by norm_num) (by norm_num) (by norm_num)
      (by norm_num) (by decide) (by decide) ⟨0, by decide⟩⟩

/-- Counterexample to C6 as stated: on the 4-node graph (`cur = 1`,
`prev = 0`, non-common neighbor = node 3), raising `q` from 1 to 2 STRICTLY
DECREASES the non-common mass (1/3 drops to 1/5), refuting "does not
decrease". -/
theorem C6_counterexample :
    noncommon_mass data4 mask4 1 2 1 0 avg4 < noncommon_mass data4 mask4 1 1 1 0 avg4 := by
  have h1 : noncommon_mass data4 mask4 1 1 1 0 avg4 = 1/3 := by
    simp +decide [noncommon_mass, slot_mass, get_normalized_probs, normalize, nbr4_1,
      classic_biased, classic_q_biased, classic_non_com, Function.update, data4, mask4]
    norm_num
  have h2 : noncommon_mass data4 mask4 1 2 1 0 avg4 = 1/5 := by
    simp +decide [noncommon_mass, slot_mass, get_normalized_probs, normalize, nbr4_1,
      classic_biased, classic_q_biased, classic_non_com, Function.update, data4, mask4]
    norm_num
  rw [h1, h2]
  norm_num

/-- Closed form of the classic return probability when `prev` is a neighbor
of `cur`: the biased weight of `prev` over itself plus the rest. -/
lemma return_mass_eq {n : ℕ} (data : Fin n → Fin n → ℚ) (nonzero : Fin n → Fin n → Bool)
    (pp q : ℚ) (cur prev : Fin n) (avg : Fin n → ℚ)
    (hprev : nonzero cur prev = true) :
    return_mass data nonzero pp q cur prev avg
      = (data cur prev / pp) / ((data cur prev / pp)
          + (((nbr_list nonzero cur).filter (fun j => !(decide (j = prev)))).map
              (classic_biased data nonzero pp q cur prev)).sum) := by
  unfold return_mass get_normalized_probs
  rw [slot_mass_normalize]
  have hfil : (nbr_list nonzero cur).filter (fun j => decide (j = prev)) = [prev] :=
    filter_eq_single _ prev (nbr_list_nodup nonzero cur) (mem_nbr_list.mpr hprev)
  have hsplit := (sum_map_filter_split (nbr_list nonzero cur) (fun j => decide (j = prev))
      (classic_biased data nonzero pp q cur prev)).symm
  rw [hsplit, hfil]
  have hu : classic_biased data nonzero pp q cur prev prev = data cur prev / pp := by
    rw [classic_biased_eq]
    simp
  simp [hu]

/-- Closed form of the extended return probability when `prev` is a neighbor
of `cur`. -/
lemma return_mass_ext_eq {n : ℕ} (data : Fin n → Fin n → ℚ) (nonzero : Fin n → Fin n → Bool)
    (pp q : ℚ) (cur prev : Fin n) (avg : Fin n → ℚ)
    (hprev : nonzero cur prev = true) :
    return_mass_ext data nonzero pp q cur prev avg
      = (data cur prev / pp) / ((data cur prev / pp)
          + (((nbr_list nonzero cur).filter (fun j => !(decide (j = prev)))).map
              (ext_biased data nonzero avg pp q cur prev)).sum) := by
  unfold return_mass_ext get_extended_normalized_probs
  rw [slot_mass_normalize]
  have hfil : (nbr_list nonzero cur).filter (fun j => decide (j = prev)) = [prev] :=
    filter_eq_single _ prev (nbr_list_nodup nonzero cur) (mem_nbr_list.mpr hprev)
  have hsplit := (sum_map_filter_split (nbr_list nonzero cur) (fun j => decide (j = prev))
      (ext_biased data nonzero avg pp q cur prev)).symm
  rw [hsplit, hfil]
  have hu : ext_biased data nonzero avg pp q cur prev prev = data cur prev / pp := by
    rw [ext_biased_eq]
    simp
  simp [hu]

/-- Claim C7 (amended): for both policies, when `prev` is a neighbor of
`cur` with positive weight AND `cur` has at least one other neighbor,
decreasing `p` strictly increases the return probability; when `prev` is
`cur`'s only neighbor the probability is constantly 1, so the strict form of
the original claim fails there.  On the all-ones triangle with `p = 1/2`,
`q = 1`, the return probability is `2/3 > 1/2` under both policies. -/
theorem C7_thm {n : ℕ} (data : Fin n → Fin n → ℚ) (nonzero : Fin n → Fin n → Bool)
    (p p' q : ℚ) (cur prev : Fin n) (avg : Fin n → ℚ)
    (hprev : nonzero cur prev = true)
    (hp' : 0 < p') (hpp : p' < p) (hq : 0 < q)
    (hnn : ∀ i j, 0 ≤ data i j)
    (hpos : ∀ j, nonzero cur j = true → 0 < data cur j)
    (hex : ∃ j, j ≠ prev ∧ nonzero cur j = true) :
    return_mass data nonzero p q cur prev avg < return_mass data nonzero p' q cur prev avg
    ∧ return_mass_ext data nonzero p q cur prev avg
        < return_mass_ext data nonzero p' q cur prev avg
    ∧ 1/2 < return_mass dataT maskT (1/2) 1 1 0 avgT
    ∧ 1/2 < return_mass_ext dataT maskT (1/2) 1 1 0 avgT := by
  have hp : 0 < p := hp'.trans hpp
  have hw : 0 < data cur prev := hpos prev hprev
  have hmemrest : ∀ j0, j0 ≠ prev → nonzero cur j0 = true →
      j0 ∈ (nbr_list nonzero cur).filter (fun j => !(decide (j = prev))) := by
    intro j0 hj0p hj0
    exact List.mem_filter.mpr ⟨mem_nbr_list.mpr hj0, by simpa using hj0p⟩
  refine ⟨?_, ?_, ?_, ?_⟩
  · rw [return_mass_eq data nonzero p q cur prev avg hprev,
        return_mass_eq data nonzero p' q cur prev avg hprev]
    have hcong : ((nbr_list nonzero cur).filter (fun j => !(decide (j = prev)))).map
          (classic_biased data nonzero p' q cur prev)
        = ((nbr_list nonzero cur).filter (fun j => !(decide (j = prev)))).map
          (classic_biased data nonzero p q cur prev) := by
      apply List.map_congr_left
      intro j hj
      have hjp : j ≠ prev := by simpa using (List.mem_filter.mp hj).2
      rw [classic_biased_eq, classic_biased_eq, if_neg hjp, if_neg hjp]
    rw [hcong]
    have hR : 0 < (((nbr_list nonzero cur).filter (fun j => !(decide (j = prev)))).map
        (classic_biased data nonzero p q cur prev)).sum := by
      apply List.sum_pos
      · intro x hx
        obtain ⟨j, hj, rfl⟩ := List.mem_map.mp hx
        exact classic_biased_pos hp hq hpos (mem_nbr_list.mp (List.mem_filter.mp hj).1)
      · obtain ⟨j0, hj0p, hj0⟩ := hex
        intro hcon
        rw [List.map_eq_nil_iff] at hcon
        have hmem := hmemrest j0 hj0p hj0
        rw [hcon] at hmem
        cases hmem
    exact mass_frac_strict (data cur prev) _ p p' hw hR hp' hpp
  · rw [return_mass_ext_eq data nonzero p q cur prev avg hprev,
        return_mass_ext_eq data nonzero p' q cur prev avg hprev]
    have hcong : ((nbr_list nonzero cur).filter (fun j => !(decide (j = prev)))).map
          (ext_biased data nonzero avg p' q cur prev)
        = ((nbr_list nonzero cur).filter (fun j => !(decide (j = prev)))).map
          (ext_biased data nonzero avg p q cur prev) := by
      apply List.map_congr_left
      intro j hj
      have hjp : j ≠ prev := by simpa using (List.mem_filter.mp hj).2
      rw [ext_biased_eq, ext_biased_eq, if_neg hjp, if_neg hjp]
    rw [hcong]
    have hR : 0 < (((nbr_list nonzero cur).filter (fun j => !(decide (j = prev)))).map
        (ext_biased data nonzero avg p q cur prev)).sum := by
      apply List.sum_pos
      · intro x hx
        obtain ⟨j, hj, rfl⟩ := List.mem_map.mp hx
        exact ext_biased_pos hp hq hnn hpos (mem_nbr_list.mp (List.mem_filter.mp hj).1)
      · obtain ⟨j0, hj0p, hj0⟩ := hex
        intro hcon
        rw [List.map_eq_nil_iff] at hcon
        have hmem := hmemrest j0 hj0p hj0
        rw [hcon] at hmem
        cases hmem
    exact mass_frac_strict (data cur prev) _ p p' hw hR hp' hpp
  · have h1 : return_mass dataT maskT (1/2) 1 1 0 avgT = 2/3 := by
      simp +decide [return_mass, slot_mass, get_normalized_probs, normalize, nbrT1,
        classic_biased, classic_q_biased, classic_non_com, Function.update, dataT, maskT]
      norm_num
    rw [h1]
    norm_num
  · have h1 : return_mass_ext dataT maskT (1/2) 1 1 0 avgT = 2/3 := by
      simp +decide [return_mass_ext, slot_mass, get_extended_normalized_probs, normalize,
        nbrT1, ext_biased, ext_q_biased, ext_inout, ext_alpha, Function.update, dataT,
        maskT, avgT, get_average_weights, finRange_three, nbr_list]
      norm_num
    rw [h1]
    norm_num

/-- Witness for C7 at the 4-node graph (`p` lowered from 1 to 1/2). -/
theorem C7_witness :
    mask4 1 0 = true ∧ (0:ℚ) < 1/2 ∧ (1/2:ℚ) < 1 ∧ (∀ i j, (0:ℚ) ≤ data4 i j)
    ∧ (∀ j, mask4 1 j = true → 0 < data4 1 j)
    ∧ (return_mass data4 mask4 1 1 1 0 avg4 < return_mass data4 mask4 (1/2) 1 1 0 avg4
      ∧ return_mass_ext data4 mask4 1 1 1 0 avg4 < return_mass_ext data4 mask4 (1/2) 1 1 0 avg4
      ∧ 1/2 < return_mass dataT maskT (1/2) 1 1 0 avgT
      ∧ 1/2 < return_mass_ext dataT maskT (1/2) 1 1 0 avgT) :=
  ⟨by decide, by norm_num, by norm_num, by decide, by decide,
    C7_thm data4 mask4 1 (1/2) 1 1 0 avg4 (by decide) (by norm_num) (by norm_num)
      (by norm_num) (by decide) (by decide) ⟨2, by decide, by decide⟩⟩

/-- Counterexample to C7 as stated: in the 2-node graph, `prev = 0` is a
neighbor of `cur = 1` with weight 1 > 0, yet halving `p` leaves the return
probability unchanged (it is 1 under both policies for both values), so the
claimed STRICT increase fails. -/
theorem C7_counterexample :
    return_mass data2 mask2 (1/2) 1 1 0 avg2 = return_mass data2 mask2 1 1 1 0 avg2
    ∧ return_mass_ext data2 mask2 (1/2) 1 1 0 avg2 = return_mass_ext data2 mask2 1 1 1 0 avg2 := by
  constructor
  · have h1 : return_mass data2 mask2 (1/2) 1 1 0 avg2 = 1 := by
      simp +decide [return_mass, slot_mass, get_normalized_probs, normalize, nbr2_1,
        classic_biased, classic_q_biased, classic_non_com, Function.update, data2, mask2]
    have h2 : return_mass data2 mask2 1 1 1 0 avg2 = 1 := by
      simp +decide [return_mass, slot_mass, get_normalized_probs, normalize, nbr2_1,
        classic_biased, classic_q_biased, classic_non_com, Function.update, data2, mask2]
    rw [h1, h2]
  · have h1 : return_mass_ext data2 mask2 (1/2) 1 1 0 avg2 = 1 := by
      simp +decide [return_mass_ext, slot_mass, get_extended_normalized_probs, normalize,
        nbr2_1, ext_biased, ext_q_biased, ext_inout, ext_alpha, Function.update, data2,
        mask2, avg2, get_average_weights, finRange_two, nbr_list]
    have h2 : return_mass_ext data2 mask2 1 1 1 0 avg2 = 1 := by
      simp +decide [return_mass_ext, slot_mass, get_extended_normalized_probs, normalize,
        nbr2_1, ext_biased, ext_q_biased, ext_inout, ext_alpha, Function.update, data2,
        mask2, avg2, get_average_weights, finRange_two, nbr_list]
    rw [h1, h2]

end PecanPy
